import Mathlib

/-!
Verification development for the Go package `parallel`.

The package offers four entry operations:
  * `For(low, high, step, worker)` — unbounded indexed iteration (parallel.go),
  * `ForN(low, high, step, parallelism, worker)` — bounded indexed iteration,
  * `Do(functions...)` — fan-out over zero-argument callables (parallel.go),
  * `RangeMap(m, f)` — keyed iteration over a Go map (parallel.go),
together with an earlier variant of `Do` (the one that returns
`errors.New(r)` unconditionally) kept in the repository.

The shallow embedding below models:
  * a candidate worker as the reflection data the source inspects
    (`Kind`, `NumIn`, `In(0).Kind`, `NumOut`, `Out(0).Name`) plus its
    behavior as a function from the argument to the returned error
    (`Option String`, with `none` for Go `nil`);
  * every `fmt.Errorf`/`errors.New` executed before dispatch as a
    constructor of `PError`;
  * the aggregated error as the string built by the collector, where the
    arrival order of worker error reports is an explicit parameter
    (a permutation of the dispatched units in any real execution);
  * the list of worker invocations actually performed, so `zero
    invocations` claims are statements about the model;
  * the bounded worker pool of `ForN` as a small step relation
    (`DStep`) on dispatcher states, used for the in-flight bound.
-/

set_option maxHeartbeats 1000000

/-- Reflection view of a candidate worker for `For`/`ForN`: the data the
source reads via `reflect` (`t.Kind() == Func`, `t.NumIn()`,
`t.In(0).Kind() == Int`, `t.NumOut()`, `t.Out(0).Name()`), plus the worker's
behavior: `body i` is the error returned by invoking the worker at `i`
(`none` models a Go `nil` error). -/
structure Worker where
  isFunc : Bool
  numIn : Nat
  paramIsInt : Bool
  numOut : Nat
  outName : String
  body : Int → Option String

/-- Result of one invocation of the worker, as the dispatching goroutine in
the source sees it: a worker with `NumOut() == 0` can never report an error
(the source only reads `r[0]` when `NumOut() == 1`). -/
def Worker.invoke (w : Worker) (i : Int) : Option String :=
  if w.numOut = 0 then none else w.body i

/-- Precondition errors: one constructor per `fmt.Errorf`/`errors.New` site
executed before any unit is dispatched, across `For`, `ForN` and `Do`. -/
inductive PError where
  | lowHigh (low high : Int)
  | stepNotPos (step : Int)
  | notAFunction (fname : String)
  | badNumIn (fname : String)
  | paramNotInt (fname : String)
  | tooManyOut (fname : String)
  | outNotError (fname : String)
  | doNotFunc (i : Nat)
  | doHasParam (i : Nat)
  | doTooManyOut (i : Nat)
  | doOutNotError
deriving DecidableEq

/-- Message text of each precondition error, following the format strings in
the source. -/
def PError.message : PError → String
  | .lowHigh l h => "low (" ++ toString l ++ ") > high (" ++ toString h ++ ")"
  | .stepNotPos s => "step (" ++ toString s ++ ") must be positive"
  | .notAFunction f => "parallel." ++ f ++ " worker must be a function."
  | .badNumIn f => "parallel." ++ f ++ " worker must have 1 parameter"
  | .paramNotInt f => "parallel." ++ f ++ " worker must have a int param"
  | .tooManyOut f => "parallel." ++ f ++ " worker must return nothing or error"
  | .outNotError f => "parallel." ++ f ++ " worker's return type must be error"
  | .doNotFunc i => "The #" ++ toString i ++ " param of Do is not a function"
  | .doHasParam i => "The #" ++ toString i ++ " param of Do is not a function with out param"
  | .doTooManyOut i => "The #" ++ toString i ++ " param of Do must return nothing or an error"
  | .doOutNotError => "Return type is not error"

/-- Range errors: the two argument checks on `(low, high, step)`. -/
def PError.isRange : PError → Bool
  | .lowHigh _ _ => true
  | .stepNotPos _ => true
  | _ => false

/-- Worker-shape validation errors (the `reflect`-based checks). -/
def PError.isValidation : PError → Bool
  | .notAFunction _ => true
  | .badNumIn _ => true
  | .paramNotInt _ => true
  | .tooManyOut _ => true
  | .outNotError _ => true
  | .doNotFunc _ => true
  | .doHasParam _ => true
  | .doTooManyOut _ => true
  | .doOutNotError => true
  | _ => false

/-- Error value returned by an entry operation: either one of the
precondition errors, or the aggregated error built from worker reports. -/
inductive GoErr where
  | pre (e : PError)
  | agg (text : String)
deriving DecidableEq

/-- Message text of a returned error value. -/
def GoErr.message : GoErr → String
  | .pre e => e.message
  | .agg t => t

/-- Aggregation of error messages exactly as the collectors do it:
`errs += msg + "\n"` in arrival order (starting from the empty string). -/
def aggErrs (msgs : List String) : String :=
  msgs.foldl (fun acc m => acc ++ m ++ "\n") ""

/-- Final step shared by `For`, `ForN`, `Do` and `RangeMap` in parallel.go:
`if len(errs) > 0 { return errors.New(errs) }; return nil`. -/
def retOf (msgs : List String) : Option GoErr :=
  if 0 < (aggErrs msgs).length then some (GoErr.agg (aggErrs msgs)) else none

/-- Worker validation shared by `For` and `ForN` (identical checks, message
prefixes differ by the function name), in source order. -/
def validateWorker (fname : String) (w : Worker) : Option PError :=
  if w.isFunc = false then some (.notAFunction fname)
  else if w.numIn ≠ 1 then some (.badNumIn fname)
  else if w.paramIsInt = false then some (.paramNotInt fname)
  else if 1 < w.numOut then some (.tooManyOut fname)
  else if w.numOut = 1 ∧ w.outName ≠ "error" then some (.outNotError fname)
  else none

/-- Shape of a worker that passes `validateWorker`. -/
def Worker.wellFormed (w : Worker) : Bool :=
  w.isFunc && w.numIn == 1 && w.paramIsInt &&
    (w.numOut == 0 || (w.numOut == 1 && w.outName == "error"))

/-- Worker shapes named by the spec as malformed: not a function, wrong
parameter count, more than one return value, or a single non-error return. -/
def Worker.malformed (w : Worker) : Prop :=
  w.isFunc = false ∨ w.numIn ≠ 1 ∨ 1 < w.numOut ∨ (w.numOut = 1 ∧ w.outName ≠ "error")

instance (w : Worker) : Decidable w.malformed := by
  unfold Worker.malformed
  infer_instance

/-- Fuel-driven unfolding of the producer loop
`for i := low; i < high; i += step`. -/
def forSeqAux : Nat → Int → Int → Int → List Int
  | 0, _, _, _ => []
  | fuel + 1, low, high, step =>
    if low < high then low :: forSeqAux fuel (low + step) high step else []

/-- Values enumerated by the loop `for i := low; i < high; i += step`.
The fuel `(high - low).toNat` is enough whenever `step ≥ 1`, which is the
only way the loop is reached in the source (step is validated first). -/
def forSeq (low high step : Int) : List Int :=
  forSeqAux (high - low).toNat low high step

/-- Result of a run of `For`/`ForN` past validation: the invocations the
workers performed (in producer order) and the returned error value. -/
structure RunResult where
  calls : List Int
  ret : Option GoErr
deriving DecidableEq

namespace parallel

/-- Model of `For` (parallel.go). `arrival` is the order in which failing
workers acquire the mutex and append to `errs`; a real execution yields some
permutation of the dispatched units. -/
def For (low high step : Int) (w : Worker) (arrival : List Int) : RunResult :=
  if low > high then ⟨[], some (.pre (.lowHigh low high))⟩
  else if step ≤ 0 then ⟨[], some (.pre (.stepNotPos step))⟩
  else
    match validateWorker "For" w with
    | some e => ⟨[], some (.pre e)⟩
    | none => ⟨forSeq low high step, retOf (arrival.filterMap w.invoke)⟩

/-- Outcome of `ForN`: the source can also panic (in `wg.Add`) instead of
returning a value. -/
inductive ForNOutcome where
  | panicked
  | ret (r : RunResult)
deriving DecidableEq

/-- Model of `ForN` (the bounded dispatcher). Notable source behavior, kept
faithfully: there is no check on `parallelism`. `wg.Add(parallelism)` panics
for negative values (`sync: negative WaitGroup counter`); with
`parallelism == 0` there are no workers, `wg.Wait()` returns at once, and the
call returns `nil` having dispatched nothing (the producer goroutine stays
blocked on `chin` whenever `low < high`). `arrival` is the order in which
worker errors arrive on `chout`. -/
def ForN (low high step parallelism : Int) (w : Worker) (arrival : List Int) :
    ForNOutcome :=
  if low > high then .ret ⟨[], some (.pre (.lowHigh low high))⟩
  else if step ≤ 0 then .ret ⟨[], some (.pre (.stepNotPos step))⟩
  else
    match validateWorker "ForN" w with
    | some e => .ret ⟨[], some (.pre e)⟩
    | none =>
      if parallelism < 0 then .panicked
      else if parallelism = 0 then .ret ⟨[], none⟩
      else .ret ⟨forSeq low high step, retOf (arrival.filterMap w.invoke)⟩

end parallel

/-- Reflection view of one argument of `Do`: the checks read `Kind`,
`NumIn`, `NumOut`, `Out(0).Name`; `body` is the error the callable returns
when invoked (`none` for `nil`). -/
structure DoFunc where
  isFunc : Bool
  numIn : Nat
  numOut : Nat
  outName : String
  body : Option String
deriving DecidableEq

/-- Result of invoking one argument of `Do` (only read when `NumOut == 1`). -/
def DoFunc.invoke (f : DoFunc) : Option String :=
  if f.numOut = 0 then none else f.body

/-- Shapes of a `Do` argument named by the spec as malformed. -/
def DoFunc.malformed (f : DoFunc) : Prop :=
  f.isFunc = false ∨ f.numIn ≠ 0 ∨ 1 < f.numOut ∨ (f.numOut = 1 ∧ f.outName ≠ "error")

instance (f : DoFunc) : Decidable f.malformed := by
  unfold DoFunc.malformed
  infer_instance

/-- Validation loop of `Do` (parallel.go): `for i, f := range functions`,
messages use the 1-based position `i+1`; the first failing argument aborts. -/
def validateDoFrom : Nat → List DoFunc → Option PError
  | _, [] => none
  | i, f :: fs =>
    if f.isFunc = false then some (.doNotFunc (i + 1))
    else if f.numIn ≠ 0 then some (.doHasParam (i + 1))
    else if 1 < f.numOut then some (.doTooManyOut (i + 1))
    else if f.numOut = 1 ∧ f.outName ≠ "error" then some (.doOutNotError)
    else validateDoFrom (i + 1) fs

/-- Validation of all arguments of `Do` (parallel.go). -/
def validateDo (fs : List DoFunc) : Option PError := validateDoFrom 0 fs

/-- Validation loop of the earlier `Do` variant: same first three checks,
but no check on the return type name. -/
def validateDoOldFrom : Nat → List DoFunc → Option PError
  | _, [] => none
  | i, f :: fs =>
    if f.isFunc = false then some (.doNotFunc (i + 1))
    else if f.numIn ≠ 0 then some (.doHasParam (i + 1))
    else if 1 < f.numOut then some (.doTooManyOut (i + 1))
    else validateDoOldFrom (i + 1) fs

/-- Validation of all arguments of the earlier `Do` variant. -/
def validateDoOld (fs : List DoFunc) : Option PError := validateDoOldFrom 0 fs

/-- Value written into slot `i` of the `errs` slice by goroutine `i` of
`Do` (it writes only a non-nil result, but the slot holds `nil` either
way, so the slot's final value is exactly `invoke`). -/
def slotResult (fs : List DoFunc) (i : Nat) : Option String :=
  match fs[i]? with
  | some f => f.invoke
  | none => none

/-- Write of goroutine `i` into its own slot of the `errs` slice. -/
def slotWrite (fs : List DoFunc) (arr : Nat → Option String) (i : Nat) :
    Nat → Option String :=
  fun j => if j = i then slotResult fs i else arr j

/-- The `errs` slice of `Do` after all goroutines completed, as a function
from slot index to content; `completion` is the real-time order in which the
goroutines performed their writes. -/
def doSlots (fs : List DoFunc) (completion : List Nat) : Nat → Option String :=
  completion.foldl (slotWrite fs) (fun _ => none)

/-- Result of a run of `Do`: the slots dispatched (in spawn order) and the
returned error value. -/
structure DoRunResult where
  calls : List Nat
  ret : Option GoErr
deriving DecidableEq

namespace parallel

/-- Model of `Do` (parallel.go): validate every argument, run one goroutine
per argument writing its own slot, then scan the slots in index order and
aggregate; `completion` is the goroutine completion order. -/
def Do (fs : List DoFunc) (completion : List Nat) : DoRunResult :=
  match validateDo fs with
  | some e => ⟨[], some (.pre e)⟩
  | none =>
    ⟨List.range fs.length,
      retOf ((List.range fs.length).filterMap (doSlots fs completion))⟩

/-- Model of the earlier `Do` variant: weaker validation, and the final
`return errors.New(r)` is unconditional — the call never returns `nil`,
even when every argument succeeded. -/
def DoOld (fs : List DoFunc) (completion : List Nat) : DoRunResult :=
  match validateDoOld fs with
  | some e => ⟨[], some (.pre e)⟩
  | none =>
    ⟨List.range fs.length,
      some (.agg (aggErrs ((List.range fs.length).filterMap (doSlots fs completion))))⟩

end parallel

/-- First argument of `RangeMap` as the source sees it: is it a Go map, and
which key/value pairs does it hold (`MapKeys` order; keys and values are
modelled as integers). -/
structure MapArg where
  isMap : Bool
  entries : List (Int × Int)

/-- Result of a run of `RangeMap` past the map check. -/
structure MapRunResult where
  calls : List (Int × Int)
  ret : Option GoErr
deriving DecidableEq

/-- Outcome of `RangeMap`: the source panics on a non-map argument. -/
inductive RangeMapOutcome where
  | panicked
  | ret (r : MapRunResult)
deriving DecidableEq

/-- Invocations performed during a `RangeMap` call: the panic fires before
any goroutine is launched, so a panicked call invoked nothing. -/
def RangeMapOutcome.callsMade : RangeMapOutcome → List (Int × Int)
  | .panicked => []
  | .ret r => r.calls

namespace parallel

/-- Model of `RangeMap` (parallel.go): `panic` on a non-map argument
(the Go panic message is `fmt.Sprintf("%+v is not a map", m)`); otherwise
one goroutine per key writes its own slot of `es`, which is then scanned in
index order. -/
def RangeMap (m : MapArg) (f : Int → Int → Option String) : RangeMapOutcome :=
  if m.isMap = false then .panicked
  else .ret ⟨m.entries, retOf (m.entries.filterMap (fun kv => f kv.1 kv.2))⟩

end parallel

/-- State of the bounded dispatcher of `ForN`: units the producer has not
yet handed off, the `parallelism` worker goroutines (each holding the unit
it is currently invoking, or idle), and the units already completed. -/
structure DState where
  pending : List Int
  workers : List (Option Int)
  done : List Int

/-- Initial dispatcher state: the full producer sequence pending, exactly
`parallelism` workers (the loop `for i := 0; i < parallelism; i++`), all
idle. -/
def initState (low high step : Int) (parallelism : Nat) : DState :=
  ⟨forSeq low high step, List.replicate parallelism none, []⟩

/-- Transitions of the bounded dispatcher: an idle worker receives the next
produced unit from `chin` and begins invoking the worker on it, or a busy
worker finishes its current invocation. -/
inductive DStep : DState → DState → Prop where
  | grab (u : Int) (rest : List Int) (j : Nat) (s : DState)
      (hp : s.pending = u :: rest) (hj : s.workers[j]? = some none) :
      DStep s ⟨rest, s.workers.set j (some u), s.done⟩
  | finish (u : Int) (j : Nat) (s : DState)
      (hj : s.workers[j]? = some (some u)) :
      DStep s ⟨s.pending, s.workers.set j none, u :: s.done⟩

/-- Reachability under `DStep`. -/
inductive Reaches : DState → DState → Prop where
  | refl (s : DState) : Reaches s s
  | step {s t u : DState} : Reaches s t → DStep t u → Reaches s u

/-- Number of invocations in flight: workers currently holding a unit. -/
def inFlight (s : DState) : Nat := (s.workers.filterMap id).length

/-! ### Properties of the producer sequence -/

theorem forSeqAux_nil_of_not_lt (fuel : Nat) (low high step : Int) (h : ¬ low < high) :
    forSeqAux fuel low high step = [] := by
  cases fuel with
  | zero => rfl
  | succ n => simp [forSeqAux, h]

theorem forSeqAux_fuel (step : Int) (hs : 0 < step) :
    ∀ (f1 f2 : Nat) (low high : Int), (high - low).toNat ≤ f1 → (high - low).toNat ≤ f2 →
      forSeqAux f1 low high step = forSeqAux f2 low high step := by
  intro f1
  induction f1 with
  | zero =>
    intro f2 low high h1 h2
    have hnl : ¬ low < high := by omega
    rw [forSeqAux_nil_of_not_lt _ _ _ _ hnl, forSeqAux_nil_of_not_lt _ _ _ _ hnl]
  | succ n ih =>
    intro f2 low high h1 h2
    by_cases hl : low < high
    · cases f2 with
      | zero => omega
      | succ m =>
        simp only [forSeqAux, if_pos hl]
        congr 1
        exact ih m (low + step) high (by omega) (by omega)
    · rw [forSeqAux_nil_of_not_lt _ _ _ _ hl, forSeqAux_nil_of_not_lt _ _ _ _ hl]

theorem forSeq_cons (low high step : Int) (hs : 0 < step) (h : low < high) :
    forSeq low high step = low :: forSeq (low + step) high step := by
  unfold forSeq
  obtain ⟨n, hn⟩ : ∃ n, (high - low).toNat = n + 1 := ⟨(high - low).toNat - 1, by omega⟩
  rw [hn]
  simp only [forSeqAux, if_pos h]
  congr 1
  exact forSeqAux_fuel step hs n ((high - (low + step)).toNat) (low + step) high
    (by omega) (le_refl _)

theorem forSeq_nil (low high step : Int) (h : ¬ low < high) : forSeq low high step = [] :=
  forSeqAux_nil_of_not_lt _ _ _ _ h

theorem forSeqAux_le (step : Int) (hs : 0 < step) :
    ∀ (fuel : Nat) (low high : Int), ∀ j ∈ forSeqAux fuel low high step, low ≤ j := by
  intro fuel
  induction fuel with
  | zero => intro low high j hj; simp [forSeqAux] at hj
  | succ n ih =>
    intro low high j hj
    by_cases hl : low < high
    · simp only [forSeqAux, if_pos hl, List.mem_cons] at hj
      rcases hj with rfl | hj
      · exact le_refl j
      · have := ih (low + step) high j hj; omega
    · simp [forSeqAux, hl] at hj

theorem forSeqAux_pairwise (step : Int) (hs : 0 < step) :
    ∀ (fuel : Nat) (low high : Int), (forSeqAux fuel low high step).Pairwise (· < ·) := by
  intro fuel
  induction fuel with
  | zero => intro low high; simp [forSeqAux]
  | succ n ih =>
    intro low high
    by_cases hl : low < high
    · simp only [forSeqAux, if_pos hl]
      refine List.Pairwise.cons ?_ (ih (low + step) high)
      intro j hj
      have := forSeqAux_le step hs n (low + step) high j hj
      omega
    · simp [forSeqAux, hl]

theorem forSeq_nodup (low high step : Int) (hs : 0 < step) : (forSeq low high step).Nodup :=
  (forSeqAux_pairwise step hs _ low high).imp (fun h => ne_of_lt h)

theorem forSeqAux_mem (step : Int) (hs : 0 < step) :
    ∀ (fuel : Nat) (low high : Int), (high - low).toNat ≤ fuel →
      ∀ i : Int, (i ∈ forSeqAux fuel low high step ↔
        ∃ k : Nat, i = low + step * (k : Int) ∧ i < high) := by
  intro fuel
  induction fuel with
  | zero =>
    intro low high hf i
    simp only [forSeqAux, List.not_mem_nil, false_iff]
    rintro ⟨k, rfl, hik⟩
    have hnn : (0 : Int) ≤ step * (k : Int) := mul_nonneg (by omega) (Int.natCast_nonneg k)
    omega
  | succ n ih =>
    intro low high hf i
    by_cases hl : low < high
    · simp only [forSeqAux, if_pos hl, List.mem_cons]
      rw [ih (low + step) high (by omega) i]
      constructor
      · rintro (rfl | ⟨k, rfl, hik⟩)
        · exact ⟨0, by simp, hl⟩
        · exact ⟨k + 1, by push_cast; ring, hik⟩
      · rintro ⟨k, rfl, hik⟩
        cases k with
        | zero => left; simp
        | succ m => right; exact ⟨m, by push_cast; ring, hik⟩
    · rw [forSeqAux_nil_of_not_lt _ _ _ _ hl]
      simp only [List.not_mem_nil, false_iff]
      rintro ⟨k, rfl, hik⟩
      have hnn : (0 : Int) ≤ step * (k : Int) := mul_nonneg (by omega) (Int.natCast_nonneg k)
      omega

theorem forSeq_mem (low high step : Int) (hs : 0 < step) (i : Int) :
    i ∈ forSeq low high step ↔ ∃ k : Nat, i = low + step * (k : Int) ∧ i < high :=
  forSeqAux_mem step hs _ low high (le_refl _) i

theorem forSeqAux_length (step : Int) (hs : 0 < step) :
    ∀ (fuel : Nat) (low high : Int), low ≤ high → (high - low).toNat ≤ fuel →
      (forSeqAux fuel low high step).length = ((high - low + step - 1) / step).toNat := by
  intro fuel
  induction fuel with
  | zero =>
    intro low high hlh hf
    have h0 : high - low = 0 := by omega
    simp only [forSeqAux, List.length_nil]
    rw [h0]
    have hz : ((0 : Int) + step - 1) / step = 0 :=
      Int.ediv_eq_zero_of_lt (by omega) (by omega)
    omega
  | succ n ih =>
    intro low high hlh hf
    by_cases hl : low < high
    · simp only [forSeqAux, if_pos hl, List.length_cons]
      have htail : (forSeqAux n (low + step) high step).length
          = ((high - (low + step) + step - 1) / step).toNat := by
        by_cases hls : low + step ≤ high
        · exact ih (low + step) high hls (by omega)
        · rw [forSeqAux_nil_of_not_lt n (low + step) high step (by omega)]
          have hz : (high - (low + step) + step - 1) / step = 0 :=
            Int.ediv_eq_zero_of_lt (by omega) (by omega)
          simp [hz]
      rw [htail]
      have hsplit : high - low + step - 1 = (high - (low + step) + step - 1) + 1 * step := by
        ring
      rw [hsplit, Int.add_mul_ediv_right _ _ (by omega : step ≠ 0)]
      have h1 : 0 ≤ (high - (low + step) + step - 1) / step :=
        Int.ediv_nonneg (by omega) (by omega)
      omega
    · have h0 : high - low = 0 := by omega
      rw [forSeqAux_nil_of_not_lt _ _ _ _ hl]
      simp only [List.length_nil]
      rw [h0]
      have hz : ((0 : Int) + step - 1) / step = 0 :=
        Int.ediv_eq_zero_of_lt (by omega) (by omega)
      omega

theorem forSeq_length (low high step : Int) (hs : 0 < step) (hlh : low ≤ high) :
    (forSeq low high step).length = ((high - low + step - 1) / step).toNat :=
  forSeqAux_length step hs _ low high hlh (le_refl _)

/-! ### The aggregated error text and its lines -/

theorem string_data_append (s t : String) : (s ++ t).data = s.data ++ t.data := by
  cases s; cases t; rfl

theorem string_mk_data (s : String) : String.mk s.data = s := by
  cases s; rfl

/-- Character stream produced by appending each message followed by a
newline. -/
def chunksData : List String → List Char
  | [] => []
  | m :: ms => m.data ++ '\n' :: chunksData ms

theorem aggErrs_data_aux (msgs : List String) :
    ∀ s : String, (msgs.foldl (fun acc m => acc ++ m ++ "\n") s).data
      = s.data ++ chunksData msgs := by
  induction msgs with
  | nil => intro s; simp [chunksData]
  | cons m ms ih =>
    intro s
    simp only [List.foldl_cons, chunksData]
    rw [ih (s ++ m ++ "\n"), string_data_append, string_data_append]
    simp

theorem aggErrs_data (msgs : List String) : (aggErrs msgs).data = chunksData msgs := by
  unfold aggErrs
  rw [aggErrs_data_aux msgs ""]
  rfl

theorem chunksData_eq_nil_iff (msgs : List String) : chunksData msgs = [] ↔ msgs = [] := by
  cases msgs with
  | nil => simp [chunksData]
  | cons m ms => simp [chunksData]

theorem retOf_eq_none (msgs : List String) (h : msgs = []) : retOf msgs = none := by
  subst h; rfl

theorem retOf_eq_some (msgs : List String) (h : msgs ≠ []) :
    retOf msgs = some (GoErr.agg (aggErrs msgs)) := by
  unfold retOf
  rw [if_pos]
  show 0 < (aggErrs msgs).data.length
  rw [aggErrs_data]
  cases msgs with
  | nil => exact absurd rfl h
  | cons m ms => simp [chunksData]

theorem retOf_none_iff (msgs : List String) : retOf msgs = none ↔ msgs = [] := by
  constructor
  · intro h
    by_contra hne
    rw [retOf_eq_some msgs hne] at h
    exact Option.noConfusion h
  · exact retOf_eq_none msgs

/-- Prepends a character to the first segment of a segment list. -/
def consHead (c : Char) : List (List Char) → List (List Char)
  | [] => [[c]]
  | l :: ls => (c :: l) :: ls

/-- Segments of a character stream delimited by newline characters; there is
always one (possibly empty) trailing segment after the last newline. -/
def splitNL : List Char → List (List Char)
  | [] => [[]]
  | c :: cs => if c = '\n' then [] :: splitNL cs else consHead c (splitNL cs)

theorem splitNL_ne_nil (cs : List Char) : splitNL cs ≠ [] := by
  cases cs with
  | nil => simp [splitNL]
  | cons c cs' =>
    simp only [splitNL]
    by_cases hc : c = '\n'
    · simp [hc]
    · rw [if_neg hc]
      cases h : splitNL cs' with
      | nil => simp [consHead]
      | cons l ls => simp [consHead]

theorem consHead_append (c : Char) (x : List (List Char)) (y : List (List Char))
    (hx : x ≠ []) : consHead c (x ++ y) = consHead c x ++ y := by
  cases x with
  | nil => exact absurd rfl hx
  | cons l ls => rfl

theorem splitNL_append (a b : List Char) :
    splitNL (a ++ '\n' :: b) = splitNL a ++ splitNL b := by
  induction a with
  | nil => simp [splitNL]
  | cons c a' ih =>
    by_cases hc : c = '\n'
    · simp only [List.cons_append, splitNL, if_pos hc, List.append_eq, ih]
    · simp only [List.cons_append, splitNL, if_neg hc, List.append_eq, ih]
      exact consHead_append c (splitNL a') (splitNL b) (splitNL_ne_nil a')

theorem splitNL_no_newline (a : List Char) (h : '\n' ∉ a) : splitNL a = [a] := by
  induction a with
  | nil => rfl
  | cons c a' ih =>
    simp only [List.mem_cons, not_or] at h
    simp only [splitNL, ih h.2]
    rw [if_neg (fun hc => h.1 hc.symm)]
    rfl


/-- Newline-terminated lines of an error text: every segment except the
trailing (unterminated) one. -/
def errLines (s : String) : List String :=
  ((splitNL s.data).dropLast).map (fun cs => String.mk cs)

/-- Predicate: the message contains no newline character. -/
def nlFree (s : String) : Prop := '\n' ∉ s.data

instance (s : String) : Decidable (nlFree s) := by
  unfold nlFree
  infer_instance

/-- Segments contributed by each message to the lines of the aggregated
text (a message containing newlines contributes several). -/
def splitChunks : List String → List (List Char)
  | [] => []
  | m :: ms => splitNL m.data ++ splitChunks ms

theorem splitNL_chunksData (msgs : List String) :
    splitNL (chunksData msgs) = splitChunks msgs ++ [[]] := by
  induction msgs with
  | nil => rfl
  | cons m ms ih =>
    simp only [chunksData, splitChunks, splitNL_append, ih, List.append_assoc]

theorem errLines_aggErrs (msgs : List String) :
    errLines (aggErrs msgs) = (splitChunks msgs).map (fun cs => String.mk cs) := by
  unfold errLines
  rw [aggErrs_data, splitNL_chunksData, List.dropLast_concat]

theorem splitChunks_of_nlFree (msgs : List String) (h : ∀ m ∈ msgs, nlFree m) :
    splitChunks msgs = msgs.map String.data := by
  induction msgs with
  | nil => rfl
  | cons m ms ih =>
    simp only [splitChunks, List.map_cons]
    rw [splitNL_no_newline m.data (h m (List.mem_cons_self m ms)),
      ih (fun x hx => h x (List.mem_cons_of_mem m hx))]
    rfl

theorem errLines_aggErrs_of_nlFree (msgs : List String) (h : ∀ m ∈ msgs, nlFree m) :
    errLines (aggErrs msgs) = msgs := by
  rw [errLines_aggErrs, splitChunks_of_nlFree msgs h, List.map_map]
  have hid : ((fun cs => String.mk cs) ∘ String.data) = (id : String → String) := by
    funext s; exact string_mk_data s
  rw [hid, List.map_id]

theorem perm_splitChunks {msgs1 msgs2 : List String} (p : msgs1.Perm msgs2) :
    (splitChunks msgs1).Perm (splitChunks msgs2) := by
  induction p with
  | nil => exact List.Perm.refl _
  | cons x p ih => exact ih.append_left (splitNL x.data)
  | swap x y l =>
    show (splitNL y.data ++ (splitNL x.data ++ splitChunks l)).Perm
      (splitNL x.data ++ (splitNL y.data ++ splitChunks l))
    rw [← List.append_assoc, ← List.append_assoc]
    exact List.perm_append_comm.append_right (splitChunks l)
  | trans p1 p2 ih1 ih2 => exact ih1.trans ih2

/-- Lines of the aggregated text carried by a returned error value (empty
for success and for precondition errors). -/
def aggLines : Option GoErr → List String
  | some (GoErr.agg t) => errLines t
  | _ => []

/-! ### Validation lemmas -/

theorem validateWorker_of_wellFormed (fname : String) (w : Worker)
    (h : w.wellFormed = true) : validateWorker fname w = none := by
  unfold Worker.wellFormed at h
  simp only [Bool.and_eq_true, Bool.or_eq_true, beq_iff_eq] at h
  obtain ⟨⟨⟨hf, hin⟩, hp⟩, hout⟩ := h
  unfold validateWorker
  rw [if_neg (by simp [hf]), if_neg (by omega), if_neg (by simp [hp])]
  rcases hout with h0 | ⟨h1o, h2o⟩
  · rw [if_neg (by omega), if_neg (by simp [h0])]
  · rw [if_neg (by omega), if_neg (by simp [h1o, h2o])]

theorem validateWorker_malformed (fname : String) (w : Worker) (h : w.malformed) :
    ∃ e, validateWorker fname w = some e ∧ e.isValidation = true := by
  unfold validateWorker
  split_ifs with h1 h2 h3 h4 h5
  · exact ⟨_, rfl, rfl⟩
  · exact ⟨_, rfl, rfl⟩
  · exact ⟨_, rfl, rfl⟩
  · exact ⟨_, rfl, rfl⟩
  · exact ⟨_, rfl, rfl⟩
  · rcases h with h | h | h | h
    · exact absurd h h1
    · exact absurd h h2
    · exact absurd h h4
    · exact absurd h h5

theorem validateDoFrom_malformed (fs : List DoFunc) :
    ∀ (i j : Nat) (f : DoFunc), fs[j]? = some f → f.malformed →
      ∃ e, validateDoFrom i fs = some e ∧ e.isValidation = true := by
  induction fs with
  | nil => intro i j f hj hf; simp at hj
  | cons g gs ih =>
    intro i j f hj hf
    unfold validateDoFrom
    split_ifs with h1 h2 h3 h4
    · exact ⟨_, rfl, rfl⟩
    · exact ⟨_, rfl, rfl⟩
    · exact ⟨_, rfl, rfl⟩
    · exact ⟨_, rfl, rfl⟩
    · cases j with
      | zero =>
        simp only [List.getElem?_cons_zero, Option.some.injEq] at hj
        subst hj
        rcases hf with h | h | h | h
        · exact absurd h h1
        · exact absurd h h2
        · exact absurd h h3
        · exact absurd h h4
      | succ j' =>
        simp only [List.getElem?_cons_succ] at hj
        exact ih (i + 1) j' f hj hf

/-! ### Unfolding the entry operations past their checks -/

theorem For_run (low high step : Int) (w : Worker) (a : List Int)
    (h1 : ¬ low > high) (h2 : ¬ step ≤ 0) (hv : validateWorker "For" w = none) :
    parallel.For low high step w a
      = ⟨forSeq low high step, retOf (a.filterMap w.invoke)⟩ := by
  unfold parallel.For
  rw [if_neg h1, if_neg h2, hv]

theorem For_pre (low high step : Int) (w : Worker) (a : List Int) (e : PError)
    (h1 : ¬ low > high) (h2 : ¬ step ≤ 0) (hv : validateWorker "For" w = some e) :
    parallel.For low high step w a = ⟨[], some (.pre e)⟩ := by
  unfold parallel.For
  rw [if_neg h1, if_neg h2, hv]

theorem ForN_run (low high step par : Int) (w : Worker) (a : List Int)
    (h1 : ¬ low > high) (h2 : ¬ step ≤ 0) (hv : validateWorker "ForN" w = none)
    (hp : 0 < par) :
    parallel.ForN low high step par w a
      = .ret ⟨forSeq low high step, retOf (a.filterMap w.invoke)⟩ := by
  unfold parallel.ForN
  rw [if_neg h1, if_neg h2, hv]
  show (if par < 0 then _ else if par = 0 then _ else _) = _
  rw [if_neg (by omega : ¬ par < 0), if_neg (by omega : ¬ par = 0)]

theorem ForN_pre (low high step par : Int) (w : Worker) (a : List Int) (e : PError)
    (h1 : ¬ low > high) (h2 : ¬ step ≤ 0) (hv : validateWorker "ForN" w = some e) :
    parallel.ForN low high step par w a = .ret ⟨[], some (.pre e)⟩ := by
  unfold parallel.ForN
  rw [if_neg h1, if_neg h2, hv]

theorem Do_run (fs : List DoFunc) (comp : List Nat) (hv : validateDo fs = none) :
    parallel.Do fs comp = ⟨List.range fs.length,
      retOf ((List.range fs.length).filterMap (doSlots fs comp))⟩ := by
  unfold parallel.Do
  rw [show validateDo fs = none from hv]

theorem Do_pre (fs : List DoFunc) (comp : List Nat) (e : PError)
    (hv : validateDo fs = some e) :
    parallel.Do fs comp = ⟨[], some (.pre e)⟩ := by
  unfold parallel.Do
  rw [show validateDo fs = some e from hv]

theorem For_low_gt (low high step : Int) (w : Worker) (a : List Int) (h : low > high) :
    parallel.For low high step w a = ⟨[], some (.pre (.lowHigh low high))⟩ := by
  unfold parallel.For
  rw [if_pos h]

theorem For_step_le (low high step : Int) (w : Worker) (a : List Int)
    (h1 : ¬ low > high) (h : step ≤ 0) :
    parallel.For low high step w a = ⟨[], some (.pre (.stepNotPos step))⟩ := by
  unfold parallel.For
  rw [if_neg h1, if_pos h]

theorem ForN_low_gt (low high step par : Int) (w : Worker) (a : List Int)
    (h : low > high) :
    parallel.ForN low high step par w a = .ret ⟨[], some (.pre (.lowHigh low high))⟩ := by
  unfold parallel.ForN
  rw [if_pos h]

theorem ForN_step_le (low high step par : Int) (w : Worker) (a : List Int)
    (h1 : ¬ low > high) (h : step ≤ 0) :
    parallel.ForN low high step par w a = .ret ⟨[], some (.pre (.stepNotPos step))⟩ := by
  unfold parallel.ForN
  rw [if_neg h1, if_pos h]

theorem ForN_par_zero (low high step : Int) (w : Worker) (a : List Int)
    (h1 : ¬ low > high) (h2 : ¬ step ≤ 0) (hv : validateWorker "ForN" w = none) :
    parallel.ForN low high step 0 w a = .ret ⟨[], none⟩ := by
  unfold parallel.ForN
  rw [if_neg h1, if_neg h2, hv]
  show (if (0 : Int) < 0 then _ else if (0 : Int) = 0 then _ else _) = _
  rw [if_neg (by omega : ¬ (0 : Int) < 0), if_pos rfl]

/-! ### The slot array of Do -/

theorem foldl_slotWrite_eq (fs : List DoFunc) :
    ∀ (comp : List Nat) (arr0 : Nat → Option String) (i : Nat),
      comp.foldl (slotWrite fs) arr0 i
        = if i ∈ comp then slotResult fs i else arr0 i := by
  intro comp
  induction comp with
  | nil => intro arr0 i; simp
  | cons c cs ih =>
    intro arr0 i
    simp only [List.foldl_cons, ih, List.mem_cons]
    by_cases hic : i ∈ cs
    · rw [if_pos hic, if_pos (Or.inr hic)]
    · rw [if_neg hic]
      by_cases hc : i = c
      · subst hc
        simp [slotWrite]
      · simp [slotWrite, hc, hic]

theorem doSlots_eq_slotResult (fs : List DoFunc) (comp : List Nat)
    (hcomp : comp.Perm (List.range fs.length)) :
    ∀ i ∈ List.range fs.length, doSlots fs comp i = slotResult fs i := by
  intro i hi
  unfold doSlots
  rw [foldl_slotWrite_eq fs comp _ i, if_pos (hcomp.mem_iff.mpr hi)]

theorem slotResult_cons_succ (f : DoFunc) (fs : List DoFunc) (i : Nat) :
    slotResult (f :: fs) (i + 1) = slotResult fs i := by
  unfold slotResult
  rw [List.getElem?_cons_succ]

theorem range_filterMap_slotResult (fs : List DoFunc) :
    (List.range fs.length).filterMap (slotResult fs) = fs.filterMap DoFunc.invoke := by
  induction fs with
  | nil => rfl
  | cons f fs' ih =>
    rw [List.length_cons, List.range_succ_eq_map, List.filterMap_cons, List.filterMap_map]
    have hcomp : (slotResult (f :: fs')) ∘ Nat.succ = slotResult fs' := by
      funext i
      exact slotResult_cons_succ f fs' i
    rw [hcomp, ih]
    have h0 : slotResult (f :: fs') 0 = f.invoke := by
      unfold slotResult
      rw [List.getElem?_cons_zero]
    rw [h0, List.filterMap_cons]

theorem doSlots_filterMap (fs : List DoFunc) (comp : List Nat)
    (hcomp : comp.Perm (List.range fs.length)) :
    (List.range fs.length).filterMap (doSlots fs comp)
      = fs.filterMap DoFunc.invoke := by
  rw [List.filterMap_congr (doSlots_eq_slotResult fs comp hcomp)]
  exact range_filterMap_slotResult fs

/-! ### The bounded worker pool -/

theorem DStep_workers_length {s t : DState} (h : DStep s t) :
    t.workers.length = s.workers.length := by
  cases h with
  | grab u rest j s hp hj => simp
  | finish u j s hj => simp

theorem reaches_workers_length (s0 s : DState) (h : Reaches s0 s) :
    s.workers.length = s0.workers.length := by
  induction h with
  | refl => rfl
  | step h1 h2 ih => rw [DStep_workers_length h2, ih]

theorem inFlight_le_workers (s : DState) : inFlight s ≤ s.workers.length :=
  List.length_filterMap_le id s.workers

/-! ### Concrete values used by witnesses and counterexamples -/

/-- Worker `func(i int) {}` (no return value): well formed, never fails. -/
def wOk : Worker := ⟨true, 1, true, 0, "", fun _ => none⟩

/-- Worker `func(i int) error` failing at even arguments. -/
def wEv : Worker :=
  ⟨true, 1, true, 1, "error", fun i => if i % 2 = 0 then some ("E" ++ toString i) else none⟩

/-- An argument that is not a function at all. -/
def wBad : Worker := ⟨false, 0, false, 0, "", fun _ => none⟩

/-- Do argument `func() error { return nil }`. -/
def okF : DoFunc := ⟨true, 0, 1, "error", none⟩

/-- Do argument failing with a message that contains a newline. -/
def fNL : DoFunc := ⟨true, 0, 1, "error", some "a\nb"⟩

/-- Do argument failing with the message `D1`. -/
def fD1 : DoFunc := ⟨true, 0, 1, "error", some "D1"⟩

/-- Do argument that is not a function. -/
def fBad : DoFunc := ⟨false, 1, 2, "", some "x"⟩

/-! ### Claim theorems -/

/-- C1: for every `low ≤ high`, `step > 0`, `parallelism ≥ 1` and a
validated worker, `ForN` invokes the worker exactly
`⌈(high-low)/step⌉ = ((high - low + step - 1) / step).toNat` times, exactly
once for each value `low, low+step, ...` strictly below `high`, with no
duplicates and no omissions; and `low = high` gives zero invocations and
immediate success. -/
theorem c1_forN_exact_invocations (low high step par : Int) (w : Worker)
    (arrival : List Int) (hlh : low ≤ high) (hstep : 0 < step) (hpar : 1 ≤ par)
    (hw : w.wellFormed = true) (ha : arrival.Perm (forSeq low high step)) :
    ∃ r : RunResult, parallel.ForN low high step par w arrival = .ret r ∧
      r.calls = forSeq low high step ∧
      r.calls.length = ((high - low + step - 1) / step).toNat ∧
      r.calls.Nodup ∧
      (∀ i : Int, i ∈ r.calls ↔ ∃ k : Nat, i = low + step * (k : Int) ∧ i < high) ∧
      (low = high → r.calls = [] ∧ r.ret = none) := by
  refine ⟨⟨forSeq low high step, retOf (arrival.filterMap w.invoke)⟩, ?_, rfl, ?_, ?_, ?_, ?_⟩
  · exact ForN_run low high step par w arrival (by omega) (by omega)
      (validateWorker_of_wellFormed "ForN" w hw) (by omega)
  · exact forSeq_length low high step hstep hlh
  · exact forSeq_nodup low high step hstep
  · exact fun i => forSeq_mem low high step hstep i
  · intro h0
    subst h0
    have hnil : forSeq low low step = [] := forSeq_nil low low step (by omega)
    have ha' : arrival = [] := by
      rw [hnil] at ha
      exact ha.eq_nil
    exact ⟨hnil, by rw [ha']; rfl⟩

/-- C1 witness: `ForN(0, 3, 2, 1, wOk)` with arrival order `[2, 0]`. -/
theorem c1_witness :
    ((0 : Int) ≤ 3 ∧ (0 : Int) < 2 ∧ (1 : Int) ≤ 1 ∧ wOk.wellFormed = true ∧
      ([2, 0] : List Int).Perm (forSeq 0 3 2)) ∧
    (∃ r : RunResult, parallel.ForN 0 3 2 1 wOk [2, 0] = .ret r ∧
      r.calls = forSeq 0 3 2 ∧
      r.calls.length = (((3 : Int) - 0 + 2 - 1) / 2).toNat ∧
      r.calls.Nodup ∧
      (∀ i : Int, i ∈ r.calls ↔ ∃ k : Nat, i = 0 + 2 * (k : Int) ∧ i < 3) ∧
      ((0 : Int) = 3 → r.calls = [] ∧ r.ret = none)) :=
  ⟨⟨by decide, by decide, by decide, by decide, by decide⟩,
    c1_forN_exact_invocations 0 3 2 1 wOk [2, 0] (by decide) (by decide) (by decide)
      (by decide) (by decide)⟩

/-- C2: in every state the bounded dispatcher of `ForN` can reach, at most
`parallelism` invocations of the worker are executing concurrently: the pool
has exactly `parallelism` workers and each holds at most one unit. -/
theorem c2_inflight_bounded (low high step : Int) (par : Nat) (s : DState)
    (h : Reaches (initState low high step par) s) : inFlight s ≤ par := by
  have hlen : s.workers.length = par := by
    rw [reaches_workers_length _ s h]
    exact List.length_replicate par none
  rw [← hlen]
  exact inFlight_le_workers s

/-- C2 witness: after one dispatch step of `ForN(0, 4, 1, 2, ·)` one
invocation is in flight, which is at most 2. -/
theorem c2_witness : inFlight ⟨[1, 2, 3], [some 0, none], []⟩ ≤ 2 :=
  c2_inflight_bounded 0 4 1 2 ⟨[1, 2, 3], [some 0, none], []⟩
    (Reaches.step (Reaches.refl _)
      (DStep.grab 0 [1, 2, 3] 0 (initState 0 4 1 2) (by decide) (by decide)))

/-- C6: any call of `For` or `ForN` with `low > high` or `step ≤ 0` returns
a range error with zero worker invocations (the checks precede every
goroutine launch in the source). -/
theorem c6_range_error (low high step par : Int) (w : Worker) (a : List Int)
    (h : low > high ∨ step ≤ 0) :
    ((parallel.For low high step w a).calls = [] ∧
      (∃ e, (parallel.For low high step w a).ret = some (.pre e) ∧ e.isRange = true)) ∧
    (∃ r, parallel.ForN low high step par w a = .ret r ∧ r.calls = [] ∧
      (∃ e, r.ret = some (.pre e) ∧ e.isRange = true)) := by
  by_cases h1 : low > high
  · rw [For_low_gt low high step w a h1]
    exact ⟨⟨rfl, ⟨_, rfl, rfl⟩⟩,
      ⟨_, ForN_low_gt low high step par w a h1, rfl, ⟨_, rfl, rfl⟩⟩⟩
  · have h2 : step ≤ 0 := h.resolve_left h1
    rw [For_step_le low high step w a h1 h2]
    exact ⟨⟨rfl, ⟨_, rfl, rfl⟩⟩,
      ⟨_, ForN_step_le low high step par w a h1 h2, rfl, ⟨_, rfl, rfl⟩⟩⟩

/-- C6 witness: `For(1, 0, 1, ·)` and `ForN(1, 0, 1, 5, ·)`. -/
theorem c6_witness :
    ((1 : Int) > 0 ∨ (1 : Int) ≤ 0) ∧
    (((parallel.For 1 0 1 wOk []).calls = [] ∧
      (∃ e, (parallel.For 1 0 1 wOk []).ret = some (.pre e) ∧ e.isRange = true)) ∧
    (∃ r, parallel.ForN 1 0 1 5 wOk [] = .ret r ∧ r.calls = [] ∧
      (∃ e, r.ret = some (.pre e) ∧ e.isRange = true))) :=
  ⟨Or.inl (by decide), c6_range_error 1 0 1 5 wOk [] (Or.inl (by decide))⟩

/-- C7: the source performs no check on `parallelism`. With
`parallelism = 0` and a nonempty range, `ForN` returns `nil` (success)
having invoked the worker zero times — the producer goroutine is left
blocked on `chin` — and with negative `parallelism` the call panics inside
`wg.Add`. No `RangeError` is produced, contradicting the claim. -/
theorem c7_forN_missing_parallelism_check :
    parallel.ForN 0 4 1 0 wOk [] = .ret ⟨[], none⟩ ∧
    parallel.ForN 0 4 1 (-1) wOk [] = .panicked := by decide

/-- C3: with `low ≤ high`, `step > 0` and a validated worker, `For` is
equivalent to `ForN` with `parallelism = ⌈(high-low)/step⌉` (the unit
count): both perform the same worker invocations, both succeed exactly when
every invocation succeeds, and on failure the aggregated messages form the
same multiset of lines (each side's lines are its arrival-ordered failing
messages, and the two arrival orders permute the same units). -/
theorem c3_for_equiv_forN (low high step : Int) (w : Worker) (a1 a2 : List Int)
    (hlh : low ≤ high) (hstep : 0 < step) (hw : w.wellFormed = true)
    (h1 : a1.Perm (forSeq low high step)) (h2 : a2.Perm (forSeq low high step)) :
    ∃ r : RunResult,
      parallel.ForN low high step ((high - low + step - 1) / step) w a2 = .ret r ∧
      r.calls = (parallel.For low high step w a1).calls ∧
      ((parallel.For low high step w a1).ret = none ↔ r.ret = none) ∧
      (aggLines (parallel.For low high step w a1).ret).Perm (aggLines r.ret) := by
  have hFor := For_run low high step w a1 (by omega) (by omega)
    (validateWorker_of_wellFormed "For" w hw)
  have p12 : (a1.filterMap w.invoke).Perm (a2.filterMap w.invoke) :=
    (h1.filterMap w.invoke).trans (h2.filterMap w.invoke).symm
  by_cases he : low < high
  · have hN : 0 < (high - low + step - 1) / step := by
      have hone : (1 : Int) ≤ (high - low + step - 1) / step := by
        rw [Int.le_ediv_iff_mul_le (by omega : (0 : Int) < step)]
        omega
      omega
    have hForN := ForN_run low high step ((high - low + step - 1) / step) w a2
      (by omega) (by omega) (validateWorker_of_wellFormed "ForN" w hw) hN
    refine ⟨⟨forSeq low high step, retOf (a2.filterMap w.invoke)⟩, hForN, ?_, ?_, ?_⟩
    · rw [hFor]
    · rw [hFor]
      show retOf (a1.filterMap w.invoke) = none ↔ retOf (a2.filterMap w.invoke) = none
      rw [retOf_none_iff, retOf_none_iff]
      constructor
      · intro hn
        rw [hn] at p12
        exact p12.symm.eq_nil
      · intro hn
        rw [hn] at p12
        exact p12.eq_nil
    · rw [hFor]
      show (aggLines (retOf (a1.filterMap w.invoke))).Perm
        (aggLines (retOf (a2.filterMap w.invoke)))
      by_cases hn : a1.filterMap w.invoke = []
      · have hn2 : a2.filterMap w.invoke = [] := by
          rw [hn] at p12
          exact p12.symm.eq_nil
        rw [retOf_eq_none _ hn, retOf_eq_none _ hn2]
      · have hn2 : ¬ a2.filterMap w.invoke = [] := by
          intro hx
          rw [hx] at p12
          exact hn p12.eq_nil
        rw [retOf_eq_some _ hn, retOf_eq_some _ hn2]
        show (errLines (aggErrs (a1.filterMap w.invoke))).Perm
          (errLines (aggErrs (a2.filterMap w.invoke)))
        rw [errLines_aggErrs, errLines_aggErrs]
        exact (perm_splitChunks p12).map _
  · have hz : (high - low + step - 1) / step = 0 := by
      rw [show high - low + step - 1 = step - 1 by omega]
      exact Int.ediv_eq_zero_of_lt (by omega) (by omega)
    have hseq : forSeq low high step = [] := forSeq_nil low high step he
    have ha1 : a1 = [] := by
      rw [hseq] at h1
      exact h1.eq_nil
    rw [hz]
    refine ⟨⟨[], none⟩, ForN_par_zero low high step w a2 (by omega) (by omega)
      (validateWorker_of_wellFormed "ForN" w hw), ?_, ?_, ?_⟩
    · rw [hFor, hseq]
    · rw [hFor, ha1]
      exact iff_of_true rfl rfl
    · rw [hFor, ha1]
      exact List.Perm.refl _

/-- C3 witness: `For(0, 3, 2, wEv)` versus `ForN(0, 3, 2, 2, wEv)`. -/
theorem c3_witness :
    ((0 : Int) ≤ 3 ∧ (0 : Int) < 2 ∧ wEv.wellFormed = true ∧
      ([2, 0] : List Int).Perm (forSeq 0 3 2) ∧
      ([0, 2] : List Int).Perm (forSeq 0 3 2)) ∧
    (∃ r : RunResult,
      parallel.ForN 0 3 2 (((3 : Int) - 0 + 2 - 1) / 2) wEv [0, 2] = .ret r ∧
      r.calls = (parallel.For 0 3 2 wEv [2, 0]).calls ∧
      ((parallel.For 0 3 2 wEv [2, 0]).ret = none ↔ r.ret = none) ∧
      (aggLines (parallel.For 0 3 2 wEv [2, 0]).ret).Perm (aggLines r.ret)) :=
  ⟨⟨by decide, by decide, by decide, by decide, by decide⟩,
    c3_for_equiv_forN 0 3 2 wEv [2, 0] [0, 2] (by decide) (by decide) (by decide)
      (by decide) (by decide)⟩

theorem retOf_lines_of_perm (msgs units : List String) (p : msgs.Perm units)
    (hne : units ≠ []) (hnl : ∀ m ∈ units, nlFree m) :
    ∃ t, retOf msgs = some (GoErr.agg t) ∧ (errLines t).length = units.length ∧
      (errLines t).toFinset = units.toFinset := by
  have hmne : msgs ≠ [] := by
    intro h
    rw [h] at p
    exact hne p.symm.eq_nil
  refine ⟨aggErrs msgs, retOf_eq_some msgs hmne, ?_, ?_⟩
  all_goals rw [errLines_aggErrs_of_nlFree msgs (fun m hm => hnl m (p.mem_iff.mp hm))]
  · exact p.length_eq
  · exact List.toFinset_eq_of_perm _ _ p

/-- C4 counterexample: `Do` with the single callable `fNL`, which fails with
the message `"a\nb"` (a message containing a newline). Exactly `k = 1` unit
fails, with trivially pairwise-distinct messages, yet the aggregated text
`"a\nb\n"` consists of 2 newline-terminated lines, not 1, and the set of its
lines differs from the set of failing messages. -/
theorem c4_counterexample :
    (parallel.Do [fNL] [0]).ret = some (.agg "a\nb\n") ∧
    ([fNL].filterMap DoFunc.invoke).length = 1 ∧
    (errLines "a\nb\n").length = 2 ∧
    errLines "a\nb\n" = ["a", "b"] := by decide

/-- C4 (amended): for a dispatch via `For`, `ForN` or `Do` in which exactly
`k ≥ 1` units fail with pairwise-distinct *newline-free* messages, the
returned error is non-nil and its text consists of exactly `k`
newline-terminated lines whose set equals the set of the failing units'
messages. The amendment, forced by `c4_counterexample`, restricts the
messages to newline-free ones (and requires at least one failure, since
with `k = 0` the call returns nil rather than a non-nil error). -/
theorem c4_amended_agg_lines (low high step par : Int) (w : Worker)
    (a1 a2 : List Int) (fs : List DoFunc) (comp : List Nat) (kF kD : Nat)
    (hlh : low ≤ high) (hstep : 0 < step) (hpar : 1 ≤ par)
    (hw : w.wellFormed = true)
    (h1 : a1.Perm (forSeq low high step)) (h2 : a2.Perm (forSeq low high step))
    (hvd : validateDo fs = none) (hcomp : comp.Perm (List.range fs.length))
    (hkF : ((forSeq low high step).filterMap w.invoke).length = kF)
    (hkD : (fs.filterMap DoFunc.invoke).length = kD)
    (hFne : 1 ≤ kF) (hDne : 1 ≤ kD)
    (hFnl : ∀ m ∈ (forSeq low high step).filterMap w.invoke, nlFree m)
    (hDnl : ∀ m ∈ fs.filterMap DoFunc.invoke, nlFree m)
    (_hFdist : ((forSeq low high step).filterMap w.invoke).Nodup)
    (_hDdist : (fs.filterMap DoFunc.invoke).Nodup) :
    (∃ t, (parallel.For low high step w a1).ret = some (.agg t) ∧
      (errLines t).length = kF ∧
      (errLines t).toFinset = ((forSeq low high step).filterMap w.invoke).toFinset) ∧
    (∃ r t, parallel.ForN low high step par w a2 = .ret r ∧
      r.ret = some (.agg t) ∧ (errLines t).length = kF ∧
      (errLines t).toFinset = ((forSeq low high step).filterMap w.invoke).toFinset) ∧
    (∃ t, (parallel.Do fs comp).ret = some (.agg t) ∧
      (errLines t).length = kD ∧
      (errLines t).toFinset = (fs.filterMap DoFunc.invoke).toFinset) := by
  have hune : (forSeq low high step).filterMap w.invoke ≠ [] := by
    intro hx
    rw [hx] at hkF
    simp at hkF
    omega
  have hdne : fs.filterMap DoFunc.invoke ≠ [] := by
    intro hx
    rw [hx] at hkD
    simp at hkD
    omega
  subst hkF
  subst hkD
  refine ⟨?_, ?_, ?_⟩
  · rw [For_run low high step w a1 (by omega) (by omega)
      (validateWorker_of_wellFormed "For" w hw)]
    exact retOf_lines_of_perm _ _ (h1.filterMap w.invoke) hune hFnl
  · rw [ForN_run low high step par w a2 (by omega) (by omega)
      (validateWorker_of_wellFormed "ForN" w hw) (by omega)]
    obtain ⟨t, ht, hl, hs⟩ := retOf_lines_of_perm _ _ (h2.filterMap w.invoke) hune hFnl
    exact ⟨_, t, rfl, ht, hl, hs⟩
  · rw [Do_run fs comp hvd, doSlots_filterMap fs comp hcomp]
    exact retOf_lines_of_perm _ _ (List.Perm.refl _) hdne hDnl

/-- C4 witness: `For(0, 2, 1, wEv)`, `ForN(0, 2, 1, 3, wEv)` (one failing
unit, message `E0`) and `Do(okF, fD1)` (one failing callable, message
`D1`). -/
theorem c4_amended_witness :
    (((forSeq 0 2 1).filterMap wEv.invoke).length = 1 ∧
      ([okF, fD1].filterMap DoFunc.invoke).length = 1 ∧
      validateDo [okF, fD1] = none ∧ ([1, 0] : List Nat).Perm (List.range 2)) ∧
    ((∃ t, (parallel.For 0 2 1 wEv [1, 0]).ret = some (.agg t) ∧
      (errLines t).length = 1 ∧
      (errLines t).toFinset = ((forSeq 0 2 1).filterMap wEv.invoke).toFinset) ∧
    (∃ r t, parallel.ForN 0 2 1 3 wEv [0, 1] = .ret r ∧
      r.ret = some (.agg t) ∧ (errLines t).length = 1 ∧
      (errLines t).toFinset = ((forSeq 0 2 1).filterMap wEv.invoke).toFinset) ∧
    (∃ t, (parallel.Do [okF, fD1] [1, 0]).ret = some (.agg t) ∧
      (errLines t).length = 1 ∧
      (errLines t).toFinset = ([okF, fD1].filterMap DoFunc.invoke).toFinset)) :=
  ⟨⟨by decide, by decide, by decide, by decide⟩,
    c4_amended_agg_lines 0 2 1 3 wEv [1, 0] [0, 1] [okF, fD1] [1, 0] 1 1
      (by decide) (by decide) (by decide) (by decide) (by decide) (by decide)
      (by decide) (by decide) (by decide) (by decide) (by decide) (by decide)
      (by decide) (by decide) (by decide) (by decide)⟩

/-- C5 (code bug in the earlier `Do` variant): with the single callable
`okF`, which returns `nil`, the current `Do` (parallel.go) returns `nil`,
but the earlier variant returns `errors.New("")` — a non-nil error value
with empty message — because its final `return errors.New(r)` is
unconditional, even though its sibling `For` in the same file guards with
`len(errs) > 0`. -/
theorem c5_oldDo_nonnil_on_success :
    (parallel.Do [okF] [0]).ret = none ∧
    (parallel.DoOld [okF] [0]).ret = some (.agg "") ∧
    (parallel.DoOld [okF] [0]).calls = [0] := by decide

/-- C8 counterexample: `For(1, 0, 1, wBad)` where `wBad` is not a function.
The claim's antecedent holds, but the call returns the range error
`low (1) > high (0)` — the range checks run before worker validation — and
not a worker-validation error. -/
theorem c8_counterexample :
    wBad.isFunc = false ∧
    (parallel.For 1 0 1 wBad []).ret = some (.pre (.lowHigh 1 0)) ∧
    (PError.lowHigh 1 0).isValidation = false := by decide

/-- C8 (amended): provided the range arguments pass their checks
(`low ≤ high`, `step > 0`) — `c8_counterexample` shows that otherwise the
range error is returned instead — a malformed worker makes `For` and `ForN`
return a descriptive validation error with zero invocations, and `Do` does
the same (unconditionally) whenever some argument is malformed. -/
theorem c8_amended_validation (low high step par : Int) (w : Worker)
    (a : List Int) (fs : List DoFunc) (comp : List Nat) (j : Nat) (f : DoFunc)
    (hlh : low ≤ high) (hstep : 0 < step) (hw : w.malformed)
    (hj : fs[j]? = some f) (hf : f.malformed) :
    ((parallel.For low high step w a).calls = [] ∧
      (∃ e, (parallel.For low high step w a).ret = some (.pre e) ∧
        e.isValidation = true)) ∧
    (∃ r, parallel.ForN low high step par w a = .ret r ∧ r.calls = [] ∧
      (∃ e, r.ret = some (.pre e) ∧ e.isValidation = true)) ∧
    ((parallel.Do fs comp).calls = [] ∧
      (∃ e, (parallel.Do fs comp).ret = some (.pre e) ∧
        e.isValidation = true)) := by
  obtain ⟨eF, heF, hvF⟩ := validateWorker_malformed "For" w hw
  obtain ⟨eN, heN, hvN⟩ := validateWorker_malformed "ForN" w hw
  obtain ⟨eD, heD, hvD⟩ := validateDoFrom_malformed fs 0 j f hj hf
  refine ⟨?_, ?_, ?_⟩
  · rw [For_pre low high step w a eF (by omega) (by omega) heF]
    exact ⟨rfl, ⟨eF, rfl, hvF⟩⟩
  · exact ⟨⟨[], some (.pre eN)⟩,
      ForN_pre low high step par w a eN (by omega) (by omega) heN, rfl,
      ⟨eN, rfl, hvN⟩⟩
  · rw [Do_pre fs comp eD heD]
    exact ⟨rfl, ⟨eD, rfl, hvD⟩⟩

/-- C8 witness: `For(0, 1, 1, wBad)`, `ForN(0, 1, 1, 1, wBad)` and
`Do(fBad)`. -/
theorem c8_amended_witness :
    ((0 : Int) ≤ 1 ∧ (0 : Int) < 1 ∧ wBad.malformed ∧
      ([fBad] : List DoFunc)[0]? = some fBad ∧ fBad.malformed) ∧
    (((parallel.For 0 1 1 wBad []).calls = [] ∧
      (∃ e, (parallel.For 0 1 1 wBad []).ret = some (.pre e) ∧
        e.isValidation = true)) ∧
    (∃ r, parallel.ForN 0 1 1 1 wBad [] = .ret r ∧ r.calls = [] ∧
      (∃ e, r.ret = some (.pre e) ∧ e.isValidation = true)) ∧
    ((parallel.Do [fBad] [0]).calls = [] ∧
      (∃ e, (parallel.Do [fBad] [0]).ret = some (.pre e) ∧
        e.isValidation = true))) :=
  ⟨⟨by decide, by decide, by decide, by decide, by decide⟩,
    c8_amended_validation 0 1 1 1 wBad [] [fBad] [0] 0 fBad (by decide)
      (by decide) (by decide) (by decide) (by decide)⟩

/-- C9 counterexample: `RangeMap` applied to a non-map argument panics
(`panic(fmt.Sprintf("%+v is not a map", m))`): no outcome of the form
`.ret r` exists, so no error value — `NotAMapError` or otherwise — is
returned to the caller. -/
theorem c9_counterexample :
    parallel.RangeMap ⟨false, [(1, 2)]⟩ (fun _ _ => none) = .panicked ∧
    ¬ ∃ r, parallel.RangeMap ⟨false, [(1, 2)]⟩ (fun _ _ => none) = .ret r := by
  refine ⟨rfl, ?_⟩
  rintro ⟨r, hr⟩
  change RangeMapOutcome.panicked = RangeMapOutcome.ret r at hr
  exact RangeMapOutcome.noConfusion hr

/-- C9 (amended): `RangeMap` on a non-map argument fails by panicking — a
fatal stop before any dispatch, not an error value returned to the caller —
with zero units executed. -/
theorem c9_amended_panic (m : MapArg) (f : Int → Int → Option String)
    (h : m.isMap = false) :
    parallel.RangeMap m f = .panicked ∧
    (parallel.RangeMap m f).callsMade = [] := by
  have hp : parallel.RangeMap m f = .panicked := by
    unfold parallel.RangeMap
    rw [if_pos h]
  refine ⟨hp, ?_⟩
  rw [hp]
  rfl

/-- C9 witness: a non-map argument carrying one entry. -/
theorem c9_amended_witness :
    (MapArg.mk false [(1, 2)]).isMap = false ∧
    (parallel.RangeMap ⟨false, [(1, 2)]⟩ (fun _ _ => some "x") = .panicked ∧
      (parallel.RangeMap ⟨false, [(1, 2)]⟩ (fun _ _ => some "x")).callsMade = []) :=
  ⟨rfl, c9_amended_panic ⟨false, [(1, 2)]⟩ (fun _ _ => some "x") rfl⟩

/-- C10: with validated callables, `Do`'s aggregated message is built by
scanning the `errs` slots in argument-position order — so the returned
value is the same for every goroutine completion order — and `Do` of an
empty list returns success. -/
theorem c10_do_deterministic (fs : List DoFunc) (comp comp2 : List Nat)
    (hv : validateDo fs = none)
    (hc : comp.Perm (List.range fs.length))
    (hc2 : comp2.Perm (List.range fs.length)) :
    (parallel.Do fs comp).ret = retOf (fs.filterMap DoFunc.invoke) ∧
    parallel.Do fs comp = parallel.Do fs comp2 ∧
    parallel.Do [] [] = ⟨[], none⟩ := by
  have e1 := Do_run fs comp hv
  have e2 := Do_run fs comp2 hv
  have s1 := doSlots_filterMap fs comp hc
  have s2 := doSlots_filterMap fs comp2 hc2
  refine ⟨?_, ?_, rfl⟩
  · rw [e1, s1]
  · rw [e1, e2, s1, s2]

/-- C10 witness: `Do(okF, fD1)` under the two completion orders. -/
theorem c10_witness :
    (validateDo [okF, fD1] = none ∧ ([1, 0] : List Nat).Perm (List.range 2) ∧
      ([0, 1] : List Nat).Perm (List.range 2)) ∧
    ((parallel.Do [okF, fD1] [1, 0]).ret = retOf ([okF, fD1].filterMap DoFunc.invoke) ∧
      parallel.Do [okF, fD1] [1, 0] = parallel.Do [okF, fD1] [0, 1] ∧
      parallel.Do [] [] = ⟨[], none⟩) :=
  ⟨⟨by decide, by decide, by decide⟩,
    c10_do_deterministic [okF, fD1] [1, 0] [0, 1] (by decide) (by decide) (by decide)⟩
